import Mathlib

/-!
Verification of the avalanchego throughput tester (`xput` / `avmtester`).

This file gives a shallow embedding of the tester's core data structures and
operations — the `UTXOSet` (index map + swap-remove backing list), the wallet
state (`Tester`) with its balance table, transaction construction
(`createTx`), sequence generation (`generateTxs`, `nextTxs`), the issuance
loop of `Run`, and the admission-control counter manipulated by the
`Issue` / `Accept` / `Reject` callbacks — and proves or refutes the spec's
claims about them.

Modelling conventions:
- Go `uint64` values are `Nat` with explicit reduction modulo `2^64`
  (`two64`) exactly where the Go code wraps; checked addition
  (`utils/math.Add64`) is modelled by `add64`.
- Go maps are total functions into `Option` (a read of a missing key in Go
  yields the zero value; a nil map reads as empty, which is the only way the
  tester reads one before initialising it).
- The 32-byte hash `avax.UTXO.InputID()` of the pair (TxID, OutputIndex) is
  modelled by the injective pairing `Nat.pair` on the model identifiers.
- IDs, addresses and asset IDs are `Nat`.
-/

set_option maxHeartbeats 1000000

/-- 2^64, the modulus of Go's `uint64` arithmetic. -/
def two64 : Nat := 18446744073709551616

/-- `math.MaxUint64`, the reference time used by `addUTXO`. -/
def maxU64 : Nat := two64 - 1

/-- Wrapping `uint64` addition (Go `+` on `uint64`). -/
def add64w (a b : Nat) : Nat := (a + b) % two64

/-- Wrapping `uint64` subtraction (Go `-` on `uint64`). -/
def sub64w (a b : Nat) : Nat := (a + (two64 - b % two64)) % two64

/-- Checked `uint64` addition: `utils/math.Add64` errors on overflow. -/
def add64 (a b : Nat) : Option Nat := if a + b < two64 then some (a + b) else none

/-- An output of a UTXO: either a `secp256k1fx.TransferOutput`
(amount, locktime, threshold, owner addresses) or an output that is not an
`avax.TransferableOut` (e.g. a `MintOutput`). -/
inductive TOut where
  | transfer (amt locktime threshold : Nat) (addrs : List Nat)
  | nontransfer
deriving DecidableEq

/-- The amount carried by a transferable output (`TransferableOut.Amount()`);
0 for a non-transferable output (Go would panic on the type assertion, which
never happens on the states the tester reaches). -/
def amtOf : TOut → Nat
  | .transfer a _ _ _ => a
  | .nontransfer => 0

/-- `avax.UTXO`: identified by (TxID, OutputIndex), carrying an asset and an
output. -/
structure UTXO where
  txID : Nat
  outIdx : Nat
  assetID : Nat
  out : TOut
deriving DecidableEq

/-- `avax.UTXO.InputID()`: the collision-resistant hash of
(TxID, OutputIndex), modelled by the injective pairing function. -/
def UTXO.inputID (u : UTXO) : Nat := Nat.pair u.txID u.outIdx

/-- `avmtester.UTXOSet`: a map from UTXO input-ID to its index in the backing
list, plus the backing list itself. -/
structure UTXOSet where
  utxoMap : Nat → Option Nat
  UTXOs : List UTXO

/-- The zero value of a `UTXOSet` (nil map, nil slice); a nil Go map reads as
empty, and `Put` initialises it before the only write. -/
def emptyUTXOSet : UTXOSet := ⟨fun _ => none, []⟩

/-- `UTXOSet.Put`: no-op when the input-ID is already present, otherwise
record the index `len(UTXOs)` and append. -/
def UTXOSet.Put (us : UTXOSet) (u : UTXO) : UTXOSet :=
  match us.utxoMap u.inputID with
  | some _ => us
  | none =>
    { utxoMap := fun k => if k = u.inputID then some us.UTXOs.length else us.utxoMap k
      UTXOs := us.UTXOs ++ [u] }

/-- `UTXOSet.Get`: look up the index, then read the backing list.  (Go
indexes the slice directly; the `Option` read is total, and on well-formed
sets the index is always in range.) -/
def UTXOSet.Get (us : UTXOSet) (id : Nat) : Option UTXO :=
  match us.utxoMap id with
  | some i => us.UTXOs[i]?
  | none => none

/-- `UTXOSet.Remove`: look up index `i`, swap the last element into position
`i`, truncate, repoint the swapped element's index entry to `i`, and delete
the removed id (the delete is last in Go, so it wins when the removed element
is itself the last one).  Returns the removed UTXO.  The impossible
out-of-range reads (Go would panic; unreachable on well-formed sets) are
modelled as a no-op. -/
def UTXOSet.Remove (us : UTXOSet) (id : Nat) : UTXOSet × Option UTXO :=
  match us.utxoMap id with
  | none => (us, none)
  | some i =>
    match us.UTXOs[i]?, us.UTXOs[us.UTXOs.length - 1]? with
    | some uI, some uJ =>
      ({ utxoMap := fun k =>
           if k = uI.inputID then none
           else if k = uJ.inputID then some i
           else us.utxoMap k
         UTXOs := (us.UTXOs.set i uJ).take (us.UTXOs.length - 1) }
       , some uI)
    | _, _ => (us, none)

/-- Well-formedness of a `UTXOSet`: every index entry points at the position
of the UTXO with that input-ID, and every list position is indexed under its
element's input-ID — index map and backing list are in sync. -/
def WF (us : UTXOSet) : Prop :=
  (∀ k i, us.utxoMap k = some i →
    ∃ u, us.UTXOs[i]? = some u ∧ u.inputID = k) ∧
  (∀ i u, us.UTXOs[i]? = some u → us.utxoMap u.inputID = some i)

theorem WF_empty : WF emptyUTXOSet := by
  constructor
  · intro k i hk
    simp [emptyUTXOSet] at hk
  · intro i u hu
    simp [emptyUTXOSet] at hu

theorem take_set_of_le {α : Type} (l : List α) (a : α) (n i : Nat) (h : n ≤ i) :
    (l.set i a).take n = l.take n := by
  apply List.ext_getElem?
  intro j
  rw [List.getElem?_take, List.getElem?_take]
  by_cases hj : j < n
  · rw [if_pos hj, if_pos hj, List.getElem?_set_ne (by omega)]
  · rw [if_neg hj, if_neg hj]

/-- The list produced by the swap-removal of position `i` (last element `b`
swapped into place `i`, then truncation) is, together with the removed
element `u`, a permutation of the original list. -/
theorem swapRemove_perm {α : Type} (l : List α) (i : Nat) (u b : α)
    (hu : l[i]? = some u) (hb : l[l.length - 1]? = some b) :
    List.Perm l (u :: (l.set i b).take (l.length - 1)) := by
  have hi : i < l.length := (List.getElem?_eq_some.mp hu).1
  by_cases hij : i = l.length - 1
  · subst hij
    rw [hu] at hb
    injection hb with hb
    subst hb
    rw [take_set_of_le _ _ _ _ (le_refl _)]
    have h2 := @List.take_succ _ l (l.length - 1)
    rw [hu] at h2
    have h3 : l.length - 1 + 1 = l.length := by omega
    rw [h3, List.take_length] at h2
    conv_lhs => rw [h2]
    exact List.perm_append_singleton u _
  · have hilt : i < l.length - 1 := by omega
    have hTlen : (l.take i).length = i := by
      rw [List.length_take]
      omega
    have hgu : l[i] = u := ((List.getElem?_eq_some.mp hu).2)
    have hldecomp : l = l.take i ++ u :: l.drop (i + 1) := by
      conv_lhs => rw [← List.take_append_drop i l, List.drop_eq_getElem_cons hi, hgu]
    have hDlen : (l.drop (i + 1)).length = l.length - (i + 1) := List.length_drop _ _
    have hlast : (l.drop (i + 1))[(l.drop (i + 1)).length - 1]? = some b := by
      rw [List.getElem?_drop]
      have harith : i + 1 + ((l.drop (i + 1)).length - 1) = l.length - 1 := by
        rw [hDlen]; omega
      rw [harith]
      exact hb
    have hDdecomp : l.drop (i + 1) =
        (l.drop (i + 1)).take ((l.drop (i + 1)).length - 1) ++ [b] := by
      have h2 := @List.take_succ _ (l.drop (i + 1)) ((l.drop (i + 1)).length - 1)
      rw [hlast] at h2
      have h3 : (l.drop (i + 1)).length - 1 + 1 = (l.drop (i + 1)).length := by
        rw [hDlen]; omega
      rw [h3, List.take_length] at h2
      exact h2
    have hset : l.set i b = l.take i ++ b :: l.drop (i + 1) := by
      conv_lhs => rw [hldecomp]
      rw [List.set_append_right _ _ (by omega : (l.take i).length ≤ i), hTlen,
        Nat.sub_self, List.set_cons_zero]
    have htake : (l.set i b).take (l.length - 1) =
        l.take i ++ b :: (l.drop (i + 1)).take ((l.drop (i + 1)).length - 1) := by
      rw [hset, List.take_append_eq_append_take,
        List.take_of_length_le (by omega : (l.take i).length ≤ l.length - 1), hTlen]
      have h4 : l.length - 1 - i = ((l.drop (i + 1)).length - 1) + 1 := by
        rw [hDlen]; omega
      rw [h4, List.take_succ_cons]
    rw [htake]
    conv_lhs => rw [hldecomp]
    conv_lhs => rw [hDdecomp]
    refine List.Perm.trans List.perm_middle ?_
    exact List.Perm.cons u (List.Perm.append_left _ (List.perm_append_singleton b _))

theorem put_WF {us : UTXOSet} (h : WF us) (u : UTXO) : WF (us.Put u) := by
  unfold UTXOSet.Put
  cases hm : us.utxoMap u.inputID with
  | some j => exact h
  | none =>
    refine ⟨?_, ?_⟩
    · intro k i hk
      dsimp only at hk ⊢
      by_cases hke : k = u.inputID
      · subst hke
        rw [if_pos rfl] at hk
        injection hk with hk
        subst hk
        exact ⟨u, by simp, rfl⟩
      · rw [if_neg hke] at hk
        obtain ⟨w, hw, hid⟩ := h.1 k i hk
        have hlt : i < us.UTXOs.length := (List.getElem?_eq_some.mp hw).1
        refine ⟨w, ?_, hid⟩
        rw [List.getElem?_append, if_pos hlt]
        exact hw
    · intro i w hw
      dsimp only at hw ⊢
      rcases Nat.lt_trichotomy i us.UTXOs.length with hlt | heq | hgt
      · rw [List.getElem?_append, if_pos hlt] at hw
        have h2 := h.2 i w hw
        have hne : w.inputID ≠ u.inputID := by
          intro he
          rw [he, hm] at h2
          cases h2
        rw [if_neg hne]
        exact h2
      · subst heq
        rw [List.getElem?_concat_length] at hw
        injection hw with hw
        subst hw
        simp
      · rw [List.getElem?_eq_none (by simp; omega)] at hw
        cases hw

theorem get_remove {us : UTXOSet} (h : WF us) (id k : Nat) :
    ((us.Remove id).1).Get k = if k = id then none else us.Get k := by
  unfold UTXOSet.Remove
  cases hm : us.utxoMap id with
  | none =>
    dsimp only
    by_cases hk : k = id
    · subst hk
      rw [if_pos rfl]
      unfold UTXOSet.Get
      rw [hm]
    · rw [if_neg hk]
  | some i =>
    obtain ⟨uI, hI, hIid⟩ := h.1 id i hm
    subst hIid
    have hi : i < us.UTXOs.length := (List.getElem?_eq_some.mp hI).1
    have hlen : us.UTXOs.length - 1 < us.UTXOs.length := by omega
    have hJ : us.UTXOs[us.UTXOs.length - 1]? =
        some (us.UTXOs[us.UTXOs.length - 1]) := List.getElem?_eq_getElem hlen
    dsimp only
    rw [hI, hJ]
    dsimp only
    set uJ := us.UTXOs[us.UTXOs.length - 1] with huJ
    have hJm : us.utxoMap uJ.inputID = some (us.UTXOs.length - 1) := h.2 _ _ hJ
    unfold UTXOSet.Get
    dsimp only
    by_cases hk1 : k = uI.inputID
    · rw [if_pos hk1, if_pos hk1]
    · rw [if_neg hk1, if_neg hk1]
      by_cases hk2 : k = uJ.inputID
      · subst hk2
        rw [if_pos rfl, hJm]
        dsimp only
        rw [hJ]
        have hne : i ≠ us.UTXOs.length - 1 := by
          intro he
          apply hk1
          rw [he] at hI
          rw [hI] at hJ
          injection hJ with hJ
          rw [hJ]
        have hilt : i < us.UTXOs.length - 1 := by omega
        rw [List.getElem?_take, if_pos hilt, List.getElem?_set_eq_of_lt _ hi]
      · rw [if_neg hk2]
        cases hmk : us.utxoMap k with
        | none => rfl
        | some v =>
          dsimp only
          obtain ⟨w, hwv, hwid⟩ := h.1 k v hmk
          have hv : v < us.UTXOs.length := (List.getElem?_eq_some.mp hwv).1
          have hvi : v ≠ i := by
            intro he
            rw [he, hI] at hwv
            injection hwv with hwv
            exact hk1 (by rw [← hwid, hwv])
          have hvj : v ≠ us.UTXOs.length - 1 := by
            intro he
            rw [he, hJ] at hwv
            injection hwv with hwv
            exact hk2 (by rw [← hwid, hwv])
          have hvlt : v < us.UTXOs.length - 1 := by omega
          rw [List.getElem?_take, if_pos hvlt, List.getElem?_set_ne (by omega)]

theorem remove_WF {us : UTXOSet} (h : WF us) (id : Nat) : WF ((us.Remove id).1) := by
  unfold UTXOSet.Remove
  cases hm : us.utxoMap id with
  | none => exact h
  | some i =>
    obtain ⟨uI, hI, hIid⟩ := h.1 id i hm
    subst hIid
    have hi : i < us.UTXOs.length := (List.getElem?_eq_some.mp hI).1
    have hlen : us.UTXOs.length - 1 < us.UTXOs.length := by omega
    have hJ : us.UTXOs[us.UTXOs.length - 1]? =
        some (us.UTXOs[us.UTXOs.length - 1]) := List.getElem?_eq_getElem hlen
    dsimp only
    rw [hI, hJ]
    dsimp only
    set uJ := us.UTXOs[us.UTXOs.length - 1] with huJ
    have hJm : us.utxoMap uJ.inputID = some (us.UTXOs.length - 1) := h.2 _ _ hJ
    constructor
    · intro k v hk
      dsimp only at hk ⊢
      by_cases hk1 : k = uI.inputID
      · rw [if_pos hk1] at hk
        cases hk
      · rw [if_neg hk1] at hk
        by_cases hk2 : k = uJ.inputID
        · rw [if_pos hk2] at hk
          injection hk with hk
          subst hk
          have hne : i ≠ us.UTXOs.length - 1 := by
            intro he
            apply hk1
            rw [he] at hI
            rw [hI] at hJ
            injection hJ with hJ
            rw [hk2, hJ]
          have hvlt : i < us.UTXOs.length - 1 := by omega
          refine ⟨uJ, ?_, hk2.symm⟩
          rw [List.getElem?_take, if_pos hvlt, List.getElem?_set_eq_of_lt _ hi]
        · rw [if_neg hk2] at hk
          obtain ⟨w, hwv, hwid⟩ := h.1 k v hk
          have hv : v < us.UTXOs.length := (List.getElem?_eq_some.mp hwv).1
          have hvi : v ≠ i := by
            intro he
            rw [he, hI] at hwv
            injection hwv with hwv
            exact hk1 (by rw [← hwid, hwv])
          have hvj : v ≠ us.UTXOs.length - 1 := by
            intro he
            rw [he, hJ] at hwv
            injection hwv with hwv
            exact hk2 (by rw [← hwid, hwv])
          have hvlt : v < us.UTXOs.length - 1 := by omega
          refine ⟨w, ?_, hwid⟩
          rw [List.getElem?_take, if_pos hvlt, List.getElem?_set_ne (by omega)]
          exact hwv
    · intro v w hw
      dsimp only at hw ⊢
      have hvlt : v < us.UTXOs.length - 1 := by
        have := (List.getElem?_eq_some.mp hw).1
        simp only [List.length_take, List.length_set] at this
        omega
      rw [List.getElem?_take, if_pos hvlt] at hw
      by_cases hvi : v = i
      · subst hvi
        rw [List.getElem?_set_eq_of_lt _ hi] at hw
        injection hw with hw
        subst hw
        have hne : uJ.inputID ≠ uI.inputID := by
          intro he
          have h2 := hJm
          rw [he, hm] at h2
          injection h2 with h2
          omega
        rw [if_neg hne, if_pos rfl]
      · rw [List.getElem?_set_ne (by omega)] at hw
        have h2 := h.2 v w hw
        have hne1 : w.inputID ≠ uI.inputID := by
          intro he
          rw [he, hm] at h2
          injection h2 with h2
          exact hvi h2.symm
        have hne2 : w.inputID ≠ uJ.inputID := by
          intro he
          rw [he, hJm] at h2
          injection h2 with h2
          omega
        rw [if_neg hne1, if_neg hne2]
        exact h2

theorem remove_perm {us : UTXOSet} {id : Nat} {u : UTXO}
    (hg : us.Get id = some u) :
    (us.Remove id).2 = some u ∧
      List.Perm us.UTXOs (u :: (us.Remove id).1.UTXOs) := by
  unfold UTXOSet.Get at hg
  unfold UTXOSet.Remove
  cases hm : us.utxoMap id with
  | none =>
    rw [hm] at hg
    cases hg
  | some i =>
    rw [hm] at hg
    dsimp only at hg
    have hi : i < us.UTXOs.length := (List.getElem?_eq_some.mp hg).1
    have hlen : us.UTXOs.length - 1 < us.UTXOs.length := by omega
    have hJ : us.UTXOs[us.UTXOs.length - 1]? =
        some (us.UTXOs[us.UTXOs.length - 1]) := List.getElem?_eq_getElem hlen
    dsimp only
    rw [hg, hJ]
    dsimp only
    exact ⟨rfl, swapRemove_perm _ _ _ _ hg hJ⟩

theorem mem_iff_get {us : UTXOSet} (h : WF us) (u : UTXO) :
    u ∈ us.UTXOs ↔ us.Get u.inputID = some u := by
  constructor
  · intro hmem
    obtain ⟨i, hi, hgi⟩ := List.mem_iff_getElem.mp hmem
    have hq : us.UTXOs[i]? = some u := by rw [List.getElem?_eq_getElem hi, hgi]
    have h2 := h.2 i u hq
    unfold UTXOSet.Get
    rw [h2]
    exact hq
  · intro hg
    unfold UTXOSet.Get at hg
    cases hmk : us.utxoMap u.inputID with
    | none =>
      rw [hmk] at hg
      cases hg
    | some i =>
      rw [hmk] at hg
      exact List.getElem?_mem hg

/-- An operation on the UTXO set, for stating trace invariants. -/
inductive SetOp where
  | put (u : UTXO)
  | remove (id : Nat)

def applySetOp (us : UTXOSet) : SetOp → UTXOSet
  | .put u => us.Put u
  | .remove id => (us.Remove id).1

/-- Run a sequence of operations on the zero-valued set. -/
def runSet (ops : List SetOp) : UTXOSet := ops.foldl applySetOp emptyUTXOSet

/-- Reference model of the set: a bare partial map from input-ID to UTXO,
with first-put-wins insertion and plain deletion. -/
def modelApply (m : Nat → Option UTXO) : SetOp → Nat → Option UTXO
  | .put u =>
    match m u.inputID with
    | some _ => m
    | none => fun k => if k = u.inputID then some u else m k
  | .remove id => fun k => if k = id then none else m k

def modelRun (ops : List SetOp) : Nat → Option UTXO :=
  ops.foldl modelApply (fun _ => none)

theorem get_put {us : UTXOSet} (h : WF us) (u : UTXO) (k : Nat) :
    (us.Put u).Get k = modelApply us.Get (.put u) k := by
  unfold UTXOSet.Put
  simp only [modelApply]
  cases hm : us.utxoMap u.inputID with
  | some i =>
    obtain ⟨w, hw, hwid⟩ := h.1 _ _ hm
    have hg : us.Get u.inputID = some w := by
      unfold UTXOSet.Get
      rw [hm]
      exact hw
    rw [hg]
  | none =>
    have hg : us.Get u.inputID = none := by
      unfold UTXOSet.Get
      rw [hm]
    rw [hg]
    dsimp only
    unfold UTXOSet.Get
    dsimp only
    by_cases hk : k = u.inputID
    · subst hk
      rw [if_pos rfl, if_pos rfl]
      dsimp only
      rw [List.getElem?_concat_length]
    · rw [if_neg hk, if_neg hk]
      cases hmk : us.utxoMap k with
      | none => rfl
      | some v =>
        dsimp only
        obtain ⟨w, hwv, _⟩ := h.1 k v hmk
        have hv : v < us.UTXOs.length := (List.getElem?_eq_some.mp hwv).1
        rw [List.getElem?_append, if_pos hv]

theorem runAux_spec (ops : List SetOp) :
    ∀ us : UTXOSet, WF us →
      WF (ops.foldl applySetOp us) ∧
      ∀ k, (ops.foldl applySetOp us).Get k = ops.foldl modelApply us.Get k := by
  induction ops with
  | nil =>
    intro us h
    exact ⟨h, fun _ => rfl⟩
  | cons op rest ih =>
    intro us h
    have hstepwf : WF (applySetOp us op) := by
      cases op with
      | put u => exact put_WF h u
      | remove id => exact remove_WF h id
    have hstepget : ∀ k, (applySetOp us op).Get k = modelApply us.Get op k := by
      cases op with
      | put u => exact get_put h u
      | remove id => exact fun k => get_remove h id k
    rw [List.foldl_cons, List.foldl_cons]
    have ih2 := ih (applySetOp us op) hstepwf
    refine ⟨ih2.1, ?_⟩
    intro k
    rw [ih2.2 k]
    have hfun : (applySetOp us op).Get = modelApply us.Get op := funext hstepget
    rw [hfun]

theorem runSet_WF (ops : List SetOp) : WF (runSet ops) :=
  (runAux_spec ops emptyUTXOSet WF_empty).1

theorem runSet_get (ops : List SetOp) (k : Nat) :
    (runSet ops).Get k = modelRun ops k := by
  have h := (runAux_spec ops emptyUTXOSet WF_empty).2 k
  unfold runSet modelRun
  rw [h]
  have hfun : emptyUTXOSet.Get = (fun _ : Nat => (none : Option UTXO)) :=
    funext fun _ => rfl
  rw [hfun]

theorem remove_swap {us : UTXOSet} (h : WF us) {id i : Nat} {uJ : UTXO}
    (hm : us.utxoMap id = some i) (hlt : i < us.UTXOs.length - 1)
    (hj : us.UTXOs[us.UTXOs.length - 1]? = some uJ) :
    ((us.Remove id).1).UTXOs[i]? = some uJ ∧
      ((us.Remove id).1).utxoMap uJ.inputID = some i := by
  unfold UTXOSet.Remove
  rw [hm]
  dsimp only
  obtain ⟨uI, hI, hIid⟩ := h.1 id i hm
  rw [hI, hj]
  dsimp only
  constructor
  · rw [List.getElem?_take, if_pos hlt,
      List.getElem?_set_eq_of_lt _ (by omega : i < us.UTXOs.length)]
  · have hJm : us.utxoMap uJ.inputID = some (us.UTXOs.length - 1) := h.2 _ _ hj
    have hne : uJ.inputID ≠ uI.inputID := by
      intro he
      rw [he, hIid, hm] at hJm
      injection hJm with hJm
      omega
    rw [if_neg hne, if_pos rfl]

/-- C5: for any sequence of Put and Remove operations, the index map and the
backing list never go out of sync (well-formedness holds at every reachable
state), after any Remove the removed id is absent from Get, iteration over
the backing list yields exactly the UTXOs that were put and not yet removed
(it agrees with a bare reference map), and removing a non-final element `i`
swaps the last element into position `i` and repoints that element's index
entry to `i`. -/
theorem utxoSet_sync (ops : List SetOp) :
    WF (runSet ops)
    ∧ (∀ id, ((runSet ops).Remove id).1.Get id = none)
    ∧ (∀ u, u ∈ (runSet ops).UTXOs ↔ modelRun ops u.inputID = some u)
    ∧ (∀ id i uJ, (runSet ops).utxoMap id = some i →
        i < (runSet ops).UTXOs.length - 1 →
        (runSet ops).UTXOs[(runSet ops).UTXOs.length - 1]? = some uJ →
        ((runSet ops).Remove id).1.UTXOs[i]? = some uJ
        ∧ ((runSet ops).Remove id).1.utxoMap uJ.inputID = some i) := by
  have hwf : WF (runSet ops) := runSet_WF ops
  refine ⟨hwf, ?_, ?_, ?_⟩
  · intro id
    rw [get_remove hwf id id, if_pos rfl]
  · intro u
    rw [mem_iff_get hwf u, runSet_get ops u.inputID]
  · intro id i uJ h1 h2 h3
    exact remove_swap hwf h1 h2 h3

/-- Modelled from the spec: the key store's spend-authority check
(`secp256k1fx.Keychain.Spend` / `Match`, outside `src/`): an output is
spendable at `time` iff it is past its locktime and the keychain holds
enough of the owner addresses to meet the threshold; a successful check
yields a transfer input carrying the output's amount.  A non-transferable
output yields no transferable input. -/
def spendAuth (kc : List Nat) (out : TOut) (time : Nat) : Option Nat :=
  match out with
  | .nontransfer => none
  | .transfer amt locktime threshold addrs =>
    if locktime ≤ time ∧ threshold ≤ (addrs.filter (fun a => kc.contains a)).length
    then some amt
    else none

/-- The wallet state of `avmtester.tester`: keychain (modelled as the list
of addresses whose keys it holds), UTXO set, per-asset balance table (total
function: a missing Go map key reads as 0), and the configured `TxFee`. -/
structure Tester where
  keychain : List Nat
  utxoSet : UTXOSet
  balance : Nat → Nat
  TxFee : Nat

/-- `tester.addUTXO`: if the output is transferable and spendable with
reference time `MaxUint64`, put it in the set and add its amount to the
asset's balance. -/
def addUTXO (t : Tester) (u : UTXO) : Tester :=
  match u.out with
  | .nontransfer => t
  | .transfer amt locktime threshold addrs =>
    if (spendAuth t.keychain (.transfer amt locktime threshold addrs) maxU64).isSome
    then
      { t with
        utxoSet := t.utxoSet.Put u
        balance := fun a =>
          if a = u.assetID then add64w (t.balance u.assetID) amt else t.balance a }
    else t

/-- `tester.removeUTXO`: look the UTXO up; if present, subtract its amount
from the asset's balance (deleting a zero entry, which reads the same as
storing 0) and remove it from the set. -/
def removeUTXO (t : Tester) (id : Nat) : Tester :=
  match t.utxoSet.Get id with
  | none => t
  | some u =>
    { t with
      balance := fun a =>
        if a = u.assetID then sub64w (t.balance u.assetID) (amtOf u.out)
        else t.balance a
      utxoSet := (t.utxoSet.Remove id).1 }

/-- Whether `addUTXO` accepts the UTXO (transferable and spendable at
unbounded reference time). -/
def canAdd (t : Tester) (u : UTXO) : Bool :=
  match u.out with
  | .nontransfer => false
  | .transfer amt locktime threshold addrs =>
    (spendAuth t.keychain (.transfer amt locktime threshold addrs) maxU64).isSome

/-- C10: for a UTXO whose output is not transferable or which the key store
cannot spend even at unbounded reference time, `addUTXO` is a no-op: the
whole wallet state — in particular the UTXO set and the balance entry of the
UTXO's asset — is unchanged. -/
theorem addUTXO_unspendable_noop (t : Tester) (u : UTXO)
    (h : canAdd t u = false) :
    addUTXO t u = t ∧ (addUTXO t u).balance u.assetID = t.balance u.assetID := by
  have hnoop : addUTXO t u = t := by
    unfold addUTXO
    unfold canAdd at h
    cases hout : u.out with
    | nontransfer => rfl
    | transfer amt locktime threshold addrs =>
      rw [hout] at h
      dsimp only at h ⊢
      rw [if_neg (by rw [h]; exact Bool.false_ne_true)]
  exact ⟨hnoop, by rw [hnoop]⟩

/-- Closed witness for C10: a concrete wallet and a concrete non-transferable
UTXO on which `addUTXO` is a no-op. -/
theorem addUTXO_unspendable_noop_witness :
    addUTXO ⟨[7], emptyUTXOSet, fun _ => 0, 0⟩ ⟨0, 0, 5, .nontransfer⟩
        = ⟨[7], emptyUTXOSet, fun _ => 0, 0⟩
    ∧ (addUTXO ⟨[7], emptyUTXOSet, fun _ => 0, 0⟩ ⟨0, 0, 5, .nontransfer⟩).balance 5
        = (⟨[7], emptyUTXOSet, fun _ => 0, 0⟩ : Tester).balance 5 :=
  addUTXO_unspendable_noop ⟨[7], emptyUTXOSet, fun _ => 0, 0⟩ ⟨0, 0, 5, .nontransfer⟩ rfl

theorem put_fresh {us : UTXOSet} {u : UTXO} (h : us.utxoMap u.inputID = none) :
    (us.Put u).UTXOs = us.UTXOs ++ [u] := by
  unfold UTXOSet.Put
  rw [h]

/-- Total amount of the in-set UTXOs carrying asset `a`. -/
def sumAsset (a : Nat) (l : List UTXO) : Nat :=
  (l.map (fun u => if u.assetID = a then amtOf u.out else 0)).sum

theorem sumAsset_append (a : Nat) (l₁ l₂ : List UTXO) :
    sumAsset a (l₁ ++ l₂) = sumAsset a l₁ + sumAsset a l₂ := by
  simp [sumAsset]

theorem sub_mod_helper (A S : Nat) :
    S % two64 = (((A + S) % two64) + (two64 - A % two64)) % two64 := by
  simp only [two64]
  omega

/-- A wallet-level operation, for stating the balance-table invariant. -/
inductive WOp where
  | add (u : UTXO)
  | remove (id : Nat)

def applyWOp (t : Tester) : WOp → Tester
  | .add u => addUTXO t u
  | .remove id => removeUTXO t id

/-- A fresh wallet as built by `NewTester`: empty UTXO set, empty balance
table, the given keychain and fee. -/
def initialTester (kc : List Nat) (fee : Nat) : Tester :=
  ⟨kc, emptyUTXOSet, fun _ => 0, fee⟩

def runW (kc : List Nat) (fee : Nat) (ops : List WOp) : Tester :=
  ops.foldl applyWOp (initialTester kc fee)

/-- Every `add` in the trace carries an input-ID not currently in the set
(as holds for the tester's hash-derived IDs). -/
def freshOps (t : Tester) : List WOp → Bool
  | [] => true
  | (WOp.add u) :: rest =>
      (t.utxoSet.utxoMap u.inputID).isNone && freshOps (applyWOp t (.add u)) rest
  | (WOp.remove id) :: rest => freshOps (applyWOp t (.remove id)) rest

theorem addUTXO_inv {t : Tester} (h1 : WF t.utxoSet)
    (h2 : ∀ a, sumAsset a t.utxoSet.UTXOs % two64 = t.balance a)
    {u : UTXO} (hfresh : t.utxoSet.utxoMap u.inputID = none) :
    WF (addUTXO t u).utxoSet ∧
      ∀ a, sumAsset a (addUTXO t u).utxoSet.UTXOs % two64 = (addUTXO t u).balance a := by
  unfold addUTXO
  cases hout : u.out with
  | nontransfer => exact ⟨h1, h2⟩
  | transfer amt locktime threshold addrs =>
    dsimp only
    by_cases hsp :
        (spendAuth t.keychain (.transfer amt locktime threshold addrs) maxU64).isSome = true
    · rw [if_pos hsp]
      refine ⟨put_WF h1 u, ?_⟩
      intro a
      dsimp only
      rw [put_fresh hfresh, sumAsset_append]
      have hsingle : sumAsset a [u] = if u.assetID = a then amt else 0 := by
        simp [sumAsset, hout, amtOf]
      rw [hsingle]
      by_cases ha : a = u.assetID
      · subst ha
        rw [if_pos rfl, if_pos rfl, ← h2 u.assetID]
        unfold add64w
        exact (Nat.mod_add_mod _ _ _).symm
      · rw [if_neg (fun he => ha he.symm), if_neg ha, Nat.add_zero]
        exact h2 a
    · rw [if_neg hsp]
      exact ⟨h1, h2⟩

theorem removeUTXO_inv {t : Tester} (h1 : WF t.utxoSet)
    (h2 : ∀ a, sumAsset a t.utxoSet.UTXOs % two64 = t.balance a) (id : Nat) :
    WF (removeUTXO t id).utxoSet ∧
      ∀ a, sumAsset a (removeUTXO t id).utxoSet.UTXOs % two64
            = (removeUTXO t id).balance a := by
  unfold removeUTXO
  cases hg : t.utxoSet.Get id with
  | none => exact ⟨h1, h2⟩
  | some u =>
    dsimp only
    obtain ⟨hrm, hperm⟩ := remove_perm hg
    refine ⟨remove_WF h1 id, ?_⟩
    intro a
    have hsum : sumAsset a t.utxoSet.UTXOs
        = (if u.assetID = a then amtOf u.out else 0)
          + sumAsset a (t.utxoSet.Remove id).1.UTXOs := by
      have hps := (hperm.map (fun w => if w.assetID = a then amtOf w.out else 0)).sum_eq
      simpa [sumAsset] using hps
    by_cases ha : a = u.assetID
    · subst ha
      rw [if_pos rfl] at hsum ⊢
      have hbal := h2 u.assetID
      rw [hsum] at hbal
      rw [← hbal]
      unfold sub64w
      exact sub_mod_helper _ _
    · rw [if_neg (fun he => ha he.symm), Nat.zero_add] at hsum
      rw [if_neg ha, ← hsum]
      exact h2 a

theorem runW_inv (ops : List WOp) :
    ∀ t : Tester, WF t.utxoSet →
      (∀ a, sumAsset a t.utxoSet.UTXOs % two64 = t.balance a) →
      freshOps t ops = true →
      WF (ops.foldl applyWOp t).utxoSet ∧
        ∀ a, sumAsset a (ops.foldl applyWOp t).utxoSet.UTXOs % two64
              = (ops.foldl applyWOp t).balance a := by
  induction ops with
  | nil =>
    intro t h1 h2 _
    exact ⟨h1, h2⟩
  | cons op rest ih =>
    intro t h1 h2 hfresh
    rw [List.foldl_cons]
    cases op with
    | add u =>
      unfold freshOps at hfresh
      rw [Bool.and_eq_true] at hfresh
      have hfr : t.utxoSet.utxoMap u.inputID = none :=
        Option.isNone_iff_eq_none.mp hfresh.1
      obtain ⟨h1s, h2s⟩ := addUTXO_inv h1 h2 hfr
      exact ih (applyWOp t (.add u)) h1s h2s hfresh.2
    | remove id =>
      unfold freshOps at hfresh
      obtain ⟨h1s, h2s⟩ := removeUTXO_inv h1 h2 id
      exact ih (applyWOp t (.remove id)) h1s h2s hfresh

/-- C6 (amended): after every `addUTXO` / `removeUTXO` starting from a fresh
wallet, provided each added UTXO's id is not already in the set at the time
of the add (which holds for the tester's hash-derived transaction IDs), the
`uint64` sum of the amounts of in-set UTXOs of each asset equals that
asset's balance-table entry. -/
theorem balance_matches_utxo_sum (kc : List Nat) (fee : Nat) (ops : List WOp) (a : Nat)
    (h : freshOps (initialTester kc fee) ops = true) :
    sumAsset a (runW kc fee ops).utxoSet.UTXOs % two64 = (runW kc fee ops).balance a := by
  have h0 : WF (initialTester kc fee).utxoSet := WF_empty
  have hb : ∀ b, sumAsset b (initialTester kc fee).utxoSet.UTXOs % two64
      = (initialTester kc fee).balance b := by
    intro b
    simp [initialTester, emptyUTXOSet, sumAsset]
  exact (runW_inv ops _ h0 hb h).2 a

/-- Witness for C6: a concrete fresh trace (one spendable deposit of 1000,
then its removal) on which the invariant is exercised. -/
theorem balance_matches_utxo_sum_witness :
    sumAsset 5 (runW [7] 0 [WOp.add ⟨0, 0, 5, .transfer 1000 0 1 [7]⟩,
        WOp.remove (UTXO.inputID ⟨0, 0, 5, .transfer 1000 0 1 [7]⟩)]).utxoSet.UTXOs % two64
      = (runW [7] 0 [WOp.add ⟨0, 0, 5, .transfer 1000 0 1 [7]⟩,
        WOp.remove (UTXO.inputID ⟨0, 0, 5, .transfer 1000 0 1 [7]⟩)]).balance 5 :=
  balance_matches_utxo_sum [7] 0
    [WOp.add ⟨0, 0, 5, .transfer 1000 0 1 [7]⟩,
      WOp.remove (UTXO.inputID ⟨0, 0, 5, .transfer 1000 0 1 [7]⟩)] 5 (by decide)

/-- Counterexample for C6 as stated: `addUTXO` of a UTXO whose id is already
in the set credits the balance but leaves the set unchanged (`Put` no-ops),
so after adding the same spendable 1000-unit UTXO twice the set sums to 1000
while the balance entry reads 2000 — set and balance were not updated
together. -/
theorem balance_mismatch_on_duplicate_add :
    sumAsset 5 (runW [7] 0 [WOp.add ⟨0, 0, 5, .transfer 1000 0 1 [7]⟩,
        WOp.add ⟨0, 0, 5, .transfer 1000 0 1 [7]⟩]).utxoSet.UTXOs = 1000
    ∧ (runW [7] 0 [WOp.add ⟨0, 0, 5, .transfer 1000 0 1 [7]⟩,
        WOp.add ⟨0, 0, 5, .transfer 1000 0 1 [7]⟩]).balance 5 = 2000 := by
  constructor
  · decide
  · decide

/-- The error taxonomy of `createTx`: zero amount (`errAmtZero`), overflow of
the checked accumulation (`math.Add64`), and insufficient funds (the
post-loop shortfall error). -/
inductive CreateErr where
  | zeroAmount
  | overflow
  | insufficientFunds
  | noKey
deriving DecidableEq

/-- `avax.TransferableInput` as built by `createTx`: source UTXOID and the
transfer input's amount (`TransferInput.Amt`, equal to the spent output's
amount). -/
structure TxIn where
  txID : Nat
  outIdx : Nat
  assetID : Nat
  amt : Nat
deriving DecidableEq

/-- `avax.TransferableOutput` as built by `createTx`: a single-threshold
pay-to-address transfer output. -/
structure TxOut where
  assetID : Nat
  amt : Nat
  locktime : Nat
  threshold : Nat
  addrs : List Nat
deriving DecidableEq

/-- A built and signed `avm.Tx`; `txID` models its hash-derived identity. -/
structure Tx where
  txID : Nat
  ins : List TxIn
  outs : List TxOut
deriving DecidableEq

def insertBy {α : Type} (lt : α → α → Bool) (a : α) : List α → List α
  | [] => [a]
  | b :: bs => if lt a b then a :: b :: bs else b :: insertBy lt a bs

/-- Stable sort by a strict order, modelling the canonical sorts of
`avax.SortTransferableInputsWithSigners` / `SortTransferableOutputs`. -/
def sortBy {α : Type} (lt : α → α → Bool) : List α → List α
  | [] => []
  | a :: as => insertBy lt a (sortBy lt as)

/-- Input order: by (TxID, OutputIndex), as in
`SortTransferableInputsWithSigners`. -/
def inLT (x y : TxIn) : Bool :=
  decide (x.txID < y.txID) || (decide (x.txID = y.txID) && decide (x.outIdx < y.outIdx))

/-- Output order: `SortTransferableOutputs` sorts by asset then serialized
bytes, which on the single-threshold same-owner outputs built here is
(assetID, amount) order. -/
def outLT (x y : TxOut) : Bool :=
  decide (x.assetID < y.assetID) || (decide (x.assetID = y.assetID) && decide (x.amt < y.amt))

theorem insertBy_perm {α : Type} (lt : α → α → Bool) (a : α) (l : List α) :
    List.Perm (insertBy lt a l) (a :: l) := by
  induction l with
  | nil => exact List.Perm.refl _
  | cons b bs ih =>
    unfold insertBy
    by_cases h : lt a b = true
    · rw [if_pos h]
    · rw [if_neg h]
      exact List.Perm.trans (List.Perm.cons b ih) (List.Perm.swap a b bs)

theorem sortBy_perm {α : Type} (lt : α → α → Bool) (l : List α) :
    List.Perm (sortBy lt l) l := by
  induction l with
  | nil => exact List.Perm.refl _
  | cons a as ih =>
    unfold sortBy
    exact List.Perm.trans (insertBy_perm lt a (sortBy lt as)) (List.Perm.cons a ih)

/-- The input-selection loop of `createTx`: scan the set's backing list in
order, skip other assets and outputs without spend authority, accumulate
the spent amount with checked addition (overflow is an immediate error),
append the consumed input, and stop as soon as the accumulated amount
reaches `thr` (the `uint64` value of `amount + fee`); falling off the end
still short is the insufficient-funds error. -/
def selectInputs (kc : List Nat) (assetID thr time : Nat) :
    List UTXO → Nat → List TxIn → Except CreateErr (Nat × List TxIn)
  | [], spent, ins =>
    if spent < thr then .error .insufficientFunds else .ok (spent, ins)
  | u :: rest, spent, ins =>
    if u.assetID = assetID then
      match spendAuth kc u.out time with
      | none => selectInputs kc assetID thr time rest spent ins
      | some inAmt =>
        match add64 spent inAmt with
        | none => .error .overflow
        | some spent2 =>
          if thr ≤ spent2
          then .ok (spent2, ins ++ [⟨u.txID, u.outIdx, u.assetID, inAmt⟩])
          else selectInputs kc assetID thr time rest spent2
            (ins ++ [⟨u.txID, u.outIdx, u.assetID, inAmt⟩])
    else selectInputs kc assetID thr time rest spent ins

/-- `tester.createTx`: reject a zero amount, select inputs against the
target `amount + t.TxFee` (computed, as in Go, in wrapping `uint64`
arithmetic), emit the payment output plus — when strictly more was spent —
a change output of `amountSpent - amount - fee` (wrapping subtraction),
canonically sort inputs and outputs, and sign (signing and codec are
external and modelled as always succeeding).  The wallet state is returned
unchanged: the method reads `t` but never writes it. -/
def createTx (t : Tester) (assetID amount destAddr changeAddr time txID : Nat) :
    Except CreateErr Tx × Tester :=
  if amount = 0 then (.error .zeroAmount, t)
  else
    match selectInputs t.keychain assetID ((amount + t.TxFee) % two64) time
        t.utxoSet.UTXOs 0 [] with
    | .error e => (.error e, t)
    | .ok (amountSpent, ins) =>
      (.ok ⟨txID, sortBy inLT ins,
        sortBy outLT
          (if (amount + t.TxFee) % two64 < amountSpent
           then [⟨assetID, amount, 0, 1, [destAddr]⟩,
                 ⟨assetID, sub64w (sub64w amountSpent amount) t.TxFee, 0, 1, [changeAddr]⟩]
           else [⟨assetID, amount, 0, 1, [destAddr]⟩])⟩, t)

/-- C9: an invocation of `createTx`, successful or failed, leaves the whole
wallet state (UTXO set, balance table, keychain) exactly as it was: input
consumption and output creation are applied only afterwards by the caller. -/
theorem createTx_frame (t : Tester) (assetID amount destAddr changeAddr time txID : Nat) :
    (createTx t assetID amount destAddr changeAddr time txID).2 = t := by
  unfold createTx
  by_cases h : amount = 0
  · rw [if_pos h]
  · rw [if_neg h]
    cases hsel : selectInputs t.keychain assetID ((amount + t.TxFee) % two64) time
        t.utxoSet.UTXOs 0 [] with
    | error e => rfl
    | ok p =>
      obtain ⟨spent, ins⟩ := p
      rfl

def insAmt (ins : List TxIn) : Nat := (ins.map TxIn.amt).sum

theorem selectInputs_spec (kc : List Nat) (assetID thr time : Nat) :
    ∀ (l : List UTXO) (spent : Nat) (ins : List TxIn) (res : Nat × List TxIn),
      spent < two64 → insAmt ins = spent →
      selectInputs kc assetID thr time l spent ins = .ok res →
      insAmt res.2 = res.1 ∧ res.1 < two64 ∧ thr ≤ res.1 := by
  intro l
  induction l with
  | nil =>
    intro spent ins res hlt hamt hok
    unfold selectInputs at hok
    by_cases hc : spent < thr
    · rw [if_pos hc] at hok
      cases hok
    · rw [if_neg hc] at hok
      injection hok with hok
      subst hok
      exact ⟨hamt, hlt, Nat.le_of_not_lt hc⟩
  | cons u rest ih =>
    intro spent ins res hlt hamt hok
    unfold selectInputs at hok
    by_cases hasset : u.assetID = assetID
    · rw [if_pos hasset] at hok
      cases hsp : spendAuth kc u.out time with
      | none =>
        rw [hsp] at hok
        exact ih spent ins res hlt hamt hok
      | some inAmt =>
        rw [hsp] at hok
        dsimp only at hok
        unfold add64 at hok
        by_cases hov : spent + inAmt < two64
        · rw [if_pos hov] at hok
          dsimp only at hok
          by_cases hthr : thr ≤ spent + inAmt
          · rw [if_pos hthr] at hok
            injection hok with hok
            subst hok
            refine ⟨?_, hov, hthr⟩
            simp only [insAmt, List.map_append, List.sum_append, List.map_cons,
              List.map_nil, List.sum_cons, List.sum_nil] at hamt ⊢
            omega
          · rw [if_neg hthr] at hok
            apply ih _ _ _ hov _ hok
            simp only [insAmt, List.map_append, List.sum_append, List.map_cons,
              List.map_nil, List.sum_cons, List.sum_nil] at hamt ⊢
            omega
        · rw [if_neg hov] at hok
          cases hok
    · rw [if_neg hasset] at hok
      exact ih spent ins res hlt hamt hok

/-- C4 (amended): for every successful build, the sum of the consumed input
amounts is at least the `uint64` value `(amount + fee) % 2^64` the code
compares against — equal to the exact `amount + fee` whenever that sum does
not overflow — and, because accumulation uses checked addition and is never
silently wrapped, the sum of the consumed inputs is itself below `2^64`
(exact). -/
theorem createTx_no_free_lunch (t : Tester)
    (assetID amount destAddr changeAddr time txID : Nat) (tx : Tx)
    (h : (createTx t assetID amount destAddr changeAddr time txID).1 = .ok tx) :
    (amount + t.TxFee) % two64 ≤ (tx.ins.map TxIn.amt).sum
    ∧ (tx.ins.map TxIn.amt).sum < two64 := by
  unfold createTx at h
  by_cases h0 : amount = 0
  · rw [if_pos h0] at h
    cases h
  · rw [if_neg h0] at h
    cases hsel : selectInputs t.keychain assetID ((amount + t.TxFee) % two64) time
        t.utxoSet.UTXOs 0 [] with
    | error e =>
      rw [hsel] at h
      cases h
    | ok p =>
      obtain ⟨spent, ins⟩ := p
      rw [hsel] at h
      dsimp only at h
      injection h with h
      have hspec := selectInputs_spec t.keychain assetID ((amount + t.TxFee) % two64) time
        t.utxoSet.UTXOs 0 [] (spent, ins) (by decide) rfl hsel
      have hins : tx.ins = sortBy inLT ins := by rw [← h]
      have hsum : (tx.ins.map TxIn.amt).sum = insAmt ins := by
        rw [hins]
        exact ((sortBy_perm inLT ins).map TxIn.amt).sum_eq
      rw [hsum, hspec.1]
      exact ⟨hspec.2.2, hspec.2.1⟩

/-- Counterexample for C4 as stated: the comparison target `amount + fee` is
computed in wrapping `uint64` arithmetic, so with `amount = 2^64 - 1` and
`fee = 2` the target wraps to 1 and a build succeeds consuming a single
1-unit input — the consumed inputs sum to 1, far below the exact
`amount + fee = 2^64 + 1`. -/
theorem createTx_wrapped_threshold_cex :
    ((createTx ⟨[7], emptyUTXOSet.Put ⟨0, 0, 5, .transfer 1 0 1 [7]⟩, fun _ => 0, 2⟩
        5 (two64 - 1) 9 9 0 1).1.toOption.map (fun tx => (tx.ins.map TxIn.amt).sum))
      = some 1
    ∧ 1 < (two64 - 1) + 2 := by
  constructor
  · rfl
  · decide

/-- Witness for C4: a concrete successful build (one 10-unit input covering
amount 3 plus fee 2) satisfying the amended bound. -/
theorem createTx_no_free_lunch_witness :
    (3 + 2) % two64 ≤
      (((⟨1, [⟨0, 0, 5, 10⟩], [⟨5, 3, 0, 1, [9]⟩, ⟨5, 5, 0, 1, [9]⟩]⟩ : Tx).ins.map
        TxIn.amt).sum)
    ∧ (((⟨1, [⟨0, 0, 5, 10⟩], [⟨5, 3, 0, 1, [9]⟩, ⟨5, 5, 0, 1, [9]⟩]⟩ : Tx).ins.map
        TxIn.amt).sum) < two64 :=
  createTx_no_free_lunch
    ⟨[7], emptyUTXOSet.Put ⟨0, 0, 5, .transfer 10 0 1 [7]⟩, fun _ => 0, 2⟩
    5 3 9 9 0 1 ⟨1, [⟨0, 0, 5, 10⟩], [⟨5, 3, 0, 1, [9]⟩, ⟨5, 5, 0, 1, [9]⟩]⟩ (by rfl)

/-- `tx.UTXOs()`: one UTXO per output, at (tx.ID(), output index). -/
def txUTXOs (tx : Tx) : List UTXO :=
  tx.outs.enum.map (fun p =>
    ⟨tx.txID, p.1, p.2.assetID, .transfer p.2.amt p.2.locktime p.2.threshold p.2.addrs⟩)

/-- The caller-side application of a built transaction in `generateTxs`:
remove every consumed input's UTXO (by its input-ID), then add every
produced output. -/
def applyTx (t : Tester) (tx : Tx) : Tester :=
  (txUTXOs tx).foldl addUTXO
    (tx.ins.foldl (fun acc i => removeUTXO acc (Nat.pair i.txID i.outIdx)) t)

/-- The body of `generateTxs`' loop: build tx `i` (always amount 1, paying
destination and change to the wallet's own first address), abort on the
first failure, otherwise apply its effects and continue. -/
def genLoop (assetID now addr : Nat) (mkTxID : Nat → Nat) :
    Nat → Nat → Tester → List Tx → Except CreateErr (List Tx) × Tester
  | 0, _, t, acc => (.ok acc, t)
  | fuel+1, i, t, acc =>
    match createTx t assetID 1 addr addr now (mkTxID i) with
    | (.error e, t2) => (.error e, t2)
    | (.ok tx, t2) => genLoop assetID now addr mkTxID fuel (i+1) (applyTx t2 tx) (acc ++ [tx])

/-- `tester.generateTxs`: error when the keychain is empty, otherwise build
`numTxs` one-unit self-payments, updating the wallet after each build.
`mkTxID` supplies the hash-derived identity of the `i`-th signed
transaction (progress logging is external and omitted). -/
def generateTxs (t : Tester) (numTxs assetID now : Nat) (mkTxID : Nat → Nat) :
    Except CreateErr (List Tx) × Tester :=
  match t.keychain.head? with
  | none => (.error .noKey, t)
  | some addr => genLoop assetID now addr mkTxID numTxs 0 t []

/-- The C8 scenario: a genesis deposit of 1000 units of asset 5 at
(TxID 0, index 0), owned by the wallet's address 7, fee 0. -/
def c8Genesis : UTXO := ⟨0, 0, 5, .transfer 1000 0 1 [7]⟩

def c8Start : Tester := addUTXO (initialTester [7] 0) c8Genesis

/-- The C8 run: generate 5 one-unit self-payments. -/
def c8Run : Except CreateErr (List Tx) × Tester :=
  generateTxs c8Start 5 5 0 (fun k => k + 1)

/-- Counterexample for C8 as stated: the generation succeeds, but with fee 0
every one-unit payment and its change return to the wallet itself, so the
ledger's balance is conserved at 1000 — not 995 — and it is held in four
UTXOs, not one. -/
theorem c8_scenario_cex :
    c8Run.1.toOption.isSome = true
    ∧ ¬(c8Run.2.balance 5 = 995 ∧ c8Run.2.utxoSet.UTXOs.length = 1) := by
  constructor
  · decide
  · decide

/-- C8 (amended): after generating 5 one-unit self-payments from a 1000-unit
genesis deposit with fee 0, the wallet holds exactly 1000 units of the asset
(balance is conserved: destination and change are the wallet's own address
and the fee is zero) spread over four UTXOs of amounts 1, 1, 1 and 997, the
997 being the last transaction's change output. -/
theorem c8_scenario_conserved :
    c8Run.1.toOption.isSome = true
    ∧ c8Run.2.balance 5 = 1000
    ∧ c8Run.2.utxoSet.UTXOs.length = 4
    ∧ c8Run.2.utxoSet.UTXOs.map (fun u => amtOf u.out) = [1, 1, 1, 997]
    ∧ (c8Run.2.utxoSet.Get (Nat.pair 5 1)).map (fun u => amtOf u.out) = some 997 := by
  refine ⟨by decide, by decide, by decide, by decide, by decide⟩

/-- `tester.nextTxs`: error when no transactions remain; when fewer than `n`
remain, the Go code returns them all but — unlike the `n ≤ len` path — never
assigns `t.txs`, so the sequence keeps the returned transactions; otherwise
return the first `n` and keep the rest.  Result is (returned value, sequence
state after the call). -/
def nextTxs {α : Type} (txs : List α) (n : Nat) : Except Unit (List α) × List α :=
  if txs.isEmpty then (.error (), txs)
  else if txs.length < n then (.ok txs, txs)
  else (.ok (txs.take n), txs.drop n)

/-- C3 exhibits the bug: requesting 2 transactions from a sequence holding
one returns that transaction but leaves the sequence unchanged — it is not
empty afterwards, and an identical second call returns the same transaction
again instead of reporting exhaustion; only the `n ≤ len` path (last
conjunct) removes what it returns. -/
theorem nextTxs_short_batch_not_removed :
    nextTxs ([99] : List Nat) 2 = (.ok [99], [99])
    ∧ (nextTxs ([99] : List Nat) 2).2 ≠ []
    ∧ nextTxs ((nextTxs ([99] : List Nat) 2).2) 2 = (.ok [99], [99])
    ∧ nextTxs ([99] : List Nat) 1 = (.ok [99], []) := by
  refine ⟨rfl, by decide, rfl, rfl⟩

/-- Outcome of the issuance loop: transactions handed to the engine,
iterations completed, and whether the run ended early on an exhausted
sequence. -/
structure LoopResult where
  submitted : Nat
  iterations : Nat
  exhausted : Bool
deriving DecidableEq

/-- The issuance loop of `tester.Run`: `for i := 0; i < numTxs; i++`, each
iteration drawing a batch of `batch` transactions via `nextTxs` and handing
it to the consensus engine (parsing and issuing are external and modelled as
succeeding).  A `nextTxs` error (sequence empty) ends the run early, which
`Run` reports as normal termination, not an error. -/
def runLoop {α : Type} : Nat → List α → Nat → Nat → Nat → LoopResult
  | 0, _, _, iters, submitted => ⟨submitted, iters, false⟩
  | fuel+1, txs, batch, iters, submitted =>
    match nextTxs txs batch with
    | (.error _, _) => ⟨submitted, iters, true⟩
    | (.ok got, rest) => runLoop fuel rest batch (iters + 1) (submitted + got.length)

def runIssuance {α : Type} (numTxs : Nat) (txs : List α) (batch : Nat) : LoopResult :=
  runLoop numTxs txs batch 0 0

theorem runLoop_iters_aux {α : Type} :
    ∀ (fuel : Nat) (txs : List α) (batch iters sub : Nat),
      (runLoop fuel txs batch iters sub).exhausted = false →
      (runLoop fuel txs batch iters sub).iterations = iters + fuel := by
  intro fuel
  induction fuel with
  | zero =>
    intro txs batch iters sub _
    rfl
  | succ n ih =>
    intro txs batch iters sub h
    unfold runLoop at h ⊢
    cases hn : nextTxs txs batch with
    | mk r rest =>
      cases r with
      | error e =>
        rw [hn] at h
        simp at h
      | ok got =>
        rw [hn] at h
        dsimp only at h ⊢
        rw [ih _ _ _ _ h]
        omega

/-- C7 (amended): the loop advances `i` by 1 per iteration, not by
`batchSize`; a run in which parsing and issuing succeed and the sequence is
never exhausted performs exactly `totalCount` iterations, each submitting
one whole batch — so the number of submitted transactions is the sum of the
drawn batch sizes, which can differ from `totalCount`. -/
theorem runLoop_iterations {α : Type} (numTxs : Nat) (txs : List α) (batch : Nat)
    (h : (runIssuance numTxs txs batch).exhausted = false) :
    (runIssuance numTxs txs batch).iterations = numTxs := by
  have h2 := runLoop_iters_aux numTxs txs batch 0 0 h
  rw [Nat.zero_add] at h2
  exact h2

theorem runLoop_iterations_witness :
    (runIssuance 3 ([0, 1, 2] : List Nat) 2).iterations = 3 :=
  runLoop_iterations 3 [0, 1, 2] 2 (by decide)

/-- Counterexample for C7 as stated: generating 3 transactions and issuing
with batch size 2, the run completes all 3 iterations without error and
without ever observing exhaustion, yet 4 transaction submissions occur
(2, then the short batch of 1 twice over, since `nextTxs` does not remove a
short batch) — not 3; advancing by `batchSize` would instead have stopped
after 2 iterations. -/
theorem runLoop_overissue_cex :
    runIssuance 3 ([10, 11, 12] : List Nat) 2 = ⟨4, 3, false⟩
    ∧ (runIssuance 3 ([10, 11, 12] : List Nat) 2).submitted ≠ 3 :=
  ⟨by decide, by decide⟩

/-- `tester.Accept`, under the engine lock: decrement the outstanding
counter; signal one waiter iff the counter is now strictly below
`MaxProcessingVtxs`.  Returns (new counter, signalled). -/
def testerAccept (maxProcessingVtxs processingVtxs : Int) : Int × Bool :=
  (processingVtxs - 1, decide (processingVtxs - 1 < maxProcessingVtxs))

/-- `tester.Reject`: identical to `tester.Accept`. -/
def testerReject (maxProcessingVtxs processingVtxs : Int) : Int × Bool :=
  (processingVtxs - 1, decide (processingVtxs - 1 < maxProcessingVtxs))

/-- C2 (amended): Accept and Reject decrement the outstanding counter and
wake a waiter exactly when the counter lands STRICTLY below the configured
maximum; landing exactly on the maximum wakes nobody (even though the wait
predicate `counter > max` is then already false). -/
theorem notify_decrement_signal (m c : Int) :
    (testerAccept m c).1 = c - 1
    ∧ ((testerAccept m c).2 = true ↔ c - 1 < m)
    ∧ (testerReject m c).1 = c - 1
    ∧ ((testerReject m c).2 = true ↔ c - 1 < m) := by
  refine ⟨rfl, ?_, rfl, ?_⟩ <;> exact decide_eq_true_iff

/-- Counterexample for C2 as stated: with configured maximum 0 and one
outstanding vertex, Accept decrements the counter to 0 — at (hence "at or
below") the maximum, where the claim requires at least one waiter to be
woken — but the strict `<` comparison signals nobody. -/
theorem accept_at_max_no_signal :
    (testerAccept 0 1).1 ≤ 0 ∧ (testerAccept 0 1).2 = false :=
  ⟨by decide, by decide⟩

/-- The capacity wait of `tester.Run` (`for processingVtxs > MaxProcessingVtxs
{ Wait }`): given the counter values observed at successive wake-ups, keep
waiting while the observed value exceeds the maximum and return the first
observed value at or below it (`none` = still blocked). -/
def awaitCapacity (maxVtxs : Int) : List Int → Option Int
  | [] => none
  | c :: rest => if maxVtxs < c then awaitCapacity maxVtxs rest else some c

inductive CEvent where
  | issue
  | accept
  | reject

/-- Modelled from the spec (§4.6, §5): the admission protocol around the
outstanding counter.  All three callbacks and the wait run under the one
engine lock; the single producer issues one container per loop iteration,
and only after its capacity wait observed `counter ≤ max` (the lock is held
from the wait through the issue call, so no other event intervenes) —
`tester.Issue` then increments the counter; `Accept`/`Reject` decrement it
at arbitrary times. -/
def cstep (maxVtxs c : Int) : CEvent → Option Int
  | .issue => if c ≤ maxVtxs then some (c + 1) else none
  | .accept => some (c - 1)
  | .reject => some (c - 1)

def crun (maxVtxs : Int) : Int → List CEvent → Option Int
  | c, [] => some c
  | c, e :: es =>
    match cstep maxVtxs c e with
    | none => none
    | some c2 => crun maxVtxs c2 es

theorem crun_bound_aux (M : Int) :
    ∀ (es : List CEvent) (c0 c : Int),
      c0 ≤ M + 1 → crun M c0 es = some c → c ≤ M + 1 := by
  intro es
  induction es with
  | nil =>
    intro c0 c h hc
    injection hc with hc
    rw [← hc]
    exact h
  | cons e rest ih =>
    intro c0 c h hc
    unfold crun at hc
    cases e with
    | issue =>
      unfold cstep at hc
      by_cases hg : c0 ≤ M
      · rw [if_pos hg] at hc
        dsimp only at hc
        exact ih (c0 + 1) c (by omega) hc
      · rw [if_neg hg] at hc
        simp at hc
    | accept =>
      dsimp only [cstep] at hc
      exact ih (c0 - 1) c (by omega) hc
    | reject =>
      dsimp only [cstep] at hc
      exact ih (c0 - 1) c (by omega) hc

/-- C1: the capacity wait blocks while the observed counter exceeds the
maximum and re-checks the predicate on every wake — it stays blocked iff
every observation is above the maximum, and it never returns while the
counter is above the maximum.  Under the admission protocol (issue gated by
the wait, one issue per admission, counter starting at 0) the counter never
exceeds `max + 1` in any reachable state — the documented off-by-one. -/
theorem awaitCapacity_spec (M : Int) :
    (∀ obs c, awaitCapacity M obs = some c → c ≤ M)
    ∧ (∀ obs : List Int, awaitCapacity M obs = none ↔ ∀ c ∈ obs, M < c)
    ∧ (∀ es c, 0 ≤ M → crun M 0 es = some c → c ≤ M + 1) := by
  refine ⟨?_, ?_, ?_⟩
  · intro obs
    induction obs with
    | nil =>
      intro c h
      cases h
    | cons a rest ih =>
      intro c h
      unfold awaitCapacity at h
      by_cases hg : M < a
      · rw [if_pos hg] at h
        exact ih c h
      · rw [if_neg hg] at h
        injection h with h
        omega
  · intro obs
    induction obs with
    | nil => simp [awaitCapacity]
    | cons a rest ih =>
      unfold awaitCapacity
      by_cases hg : M < a
      · rw [if_pos hg]
        simp [ih, hg]
      · rw [if_neg hg]
        simp [hg]
  · intro es c hM h
    exact crun_bound_aux M es 0 c (by omega) h
